/-
Verification of the fledermaus static-site-generator core (src/core.js)
against its natural-language specification.

The JavaScript code is shallowly embedded in Lean:
  * JS values (front-matter fields, YAML configs, document fields) are
    modelled by the inductive type `Value`; plain objects are association
    lists in insertion order (prototype chains are not modelled), numbers
    are modelled as integers (the code under verification never computes
    with fractional numbers), and `undefined` is an explicit value used
    where the code reads a missing property.
  * Documents are JS objects, i.e. `List (String × Value)`.
  * Thrown JS exceptions are modelled with `Except JsError`.
  * lodash `_.merge` is modelled by `mergeVal` / `mergeFields` /
    `mergeArrays` below, following lodash semantics: source keys are
    processed in order, `undefined` source values are skipped, plain
    objects merge recursively, arrays merge index-wise, anything else is
    replaced by the source value.
-/
import Mathlib

set_option linter.unusedVariables false

namespace Fledermaus

/-- A JavaScript value as used by the fledermaus core: front-matter
fields, YAML config values and document fields.  Objects are association
lists in insertion order. -/
inductive Value where
  | undefined : Value
  | null : Value
  | bool (b : Bool) : Value
  | num (n : Int) : Value
  | str (s : String) : Value
  | arr (elts : List Value) : Value
  | obj (fields : List (String × Value)) : Value

/-- `true` exactly on the JS value `undefined`. -/
def Value.isUndefined : Value → Bool
  | .undefined => true
  | _ => false

/-- A defined scalar value: not an object, not an array, not
`undefined`. -/
def isScalar : Value → Bool
  | .obj _ => false
  | .arr _ => false
  | .undefined => false
  | _ => true

/-- A JS error object.  The code under verification only ever constructs
plain `Error` objects with a message (`jsError`); the other constructors
exist so that the error taxonomy used by the specification
(`FieldParseError`, `ConfigLoadError`) is expressible in claims. -/
inductive JsError where
  | jsError (message : String) : JsError
  | fieldParseError (field : String) : JsError
  | configLoadError (path : String) : JsError
  deriving DecidableEq

/-- `true` exactly on a `JsError.fieldParseError`. -/
def JsError.isFieldParseError : JsError → Bool
  | .fieldParseError _ => true
  | _ => false

/-- A document: a JS object, keys in insertion order. -/
abbrev Doc := List (String × Value)

/-- Reading a property of a JS object: first binding of the key, if any. -/
def getEntry {β : Type} : List (String × β) → String → Option β
  | [], _ => none
  | (k, v) :: tl, key => if k = key then some v else getEntry tl key

/-- Reading a property as JS does: `undefined` when the key is absent. -/
def getKey (document : Doc) (key : String) : Value :=
  (getEntry document key).getD .undefined

/-- JS property assignment `o[key] = v`: overwrite in place if the key
exists, otherwise append the new key at the end. -/
def setKey {β : Type} : List (String × β) → String → β → List (String × β)
  | [], key, v => [(key, v)]
  | (k, v') :: tl, key, v =>
    if k = key then (k, v) :: tl else (k, v') :: setKey tl key v

mutual

/-- JS `String(value)` coercion, as used for object property keys and by
`RegExp.prototype.test`: `undefined ↦ "undefined"`, `null ↦ "null"`,
arrays join their coerced elements with `","` (with `null`/`undefined`
elements rendered empty), plain objects render `"[object Object]"`. -/
def jsToString : Value → String
  | .undefined => "undefined"
  | .null => "null"
  | .bool b => if b then "true" else "false"
  | .num n => toString n
  | .str s => s
  | .arr elts => jsToStringList elts
  | .obj _ => "[object Object]"

/-- Elements of an array joined with `","` (JS `Array.prototype.join`). -/
def jsToStringList : List Value → String
  | [] => ""
  | [v] => jsToStringElem v
  | v :: tl => jsToStringElem v ++ "," ++ jsToStringList tl

/-- One array element under JS join: `null` and `undefined` render empty. -/
def jsToStringElem : Value → String
  | .null => ""
  | .undefined => ""
  | v => jsToString v

end

mutual

/-- JS strict equality `===` on the embedded values, modelled
structurally.  The code only ever compares primitive values (front-matter
scalars against filter criteria), where strict equality is structural;
reference identity of objects/arrays is approximated by structural
equality. -/
def jsStrictEq : Value → Value → Bool
  | .undefined, .undefined => true
  | .null, .null => true
  | .bool a, .bool b => a = b
  | .num a, .num b => a = b
  | .str a, .str b => a = b
  | .arr a, .arr b => jsStrictEqList a b
  | .obj a, .obj b => jsStrictEqFields a b
  | _, _ => false

def jsStrictEqList : List Value → List Value → Bool
  | [], [] => true
  | a :: as, b :: bs => jsStrictEq a b && jsStrictEqList as bs
  | _, _ => false

def jsStrictEqFields : List (String × Value) → List (String × Value) → Bool
  | [], [] => true
  | (k, v) :: as, (k', v') :: bs => k = k' && jsStrictEq v v' && jsStrictEqFields as bs
  | _, _ => false

end

mutual

/-- lodash `_.merge` at a single property: the source value `v` merges
over the destination value `dv`.  `undefined` sources keep the
destination, two plain objects merge recursively key by key, two arrays
merge index-wise, and any other source value replaces the destination. -/
def mergeVal : Value → Value → Value
  | dv, .undefined => dv
  | .obj d, .obj s => .obj (mergeFields d s)
  | .arr d, .arr s => .arr (mergeArrays d s)
  | _, v => v

/-- lodash `_.merge(dst, src)` on plain objects: the bindings of `src`
are processed in insertion order into `dst`. -/
def mergeFields : List (String × Value) → List (String × Value) → List (String × Value)
  | d, [] => d
  | d, (k, v) :: tl => mergeFields (mergeField d k v) tl

/-- Merging one source binding `(k, v)` into the object `d`. -/
def mergeField (d : List (String × Value)) (k : String) (v : Value) : List (String × Value) :=
  if v.isUndefined then d
  else match getEntry d k with
    | some dv => setKey d k (mergeVal dv v)
    | none => d ++ [(k, v)]

/-- lodash `_.merge` on arrays: index-wise merge, the longer tail is
kept. -/
def mergeArrays : List Value → List Value → List Value
  | d, [] => d
  | [], s => s
  | dv :: dtl, sv :: stl => mergeVal dv sv :: mergeArrays dtl stl

end

/-! ### URL derivation (`filepathToUrl`) -/

/-- Scan a reversed character list for a file extension: characters up to
the first `'.'` are the extension; hitting `'/'` or the end first means
the basename has no extension.  Returns the reversed remainder after
dropping `".<ext>"`. -/
def removeExtensionRev : List Char → Option (List Char)
  | [] => none
  | c :: tl =>
    if c = '.' then some tl
    else if c = '/' then none
    else removeExtensionRev tl

/-- Modelled from the spec: the repository's `util.js` (its
`removeExtension` helper) is not under `src/`; the spec says URL
derivation starts by stripping the file extension.  Strips a trailing
`".<ext>"` from the basename, if present. -/
def removeExtensionL (l : List Char) : List Char :=
  match removeExtensionRev l.reverse with
  | some restRev => restRev.reverse
  | none => l

/-- The characters of `"/index"`. -/
def indexSuffix : List Char := ['/', 'i', 'n', 'd', 'e', 'x']

/-- `url.replace(/\/index$/, '')`: remove one trailing `"/index"`. -/
def stripTrailingIndex (url : List Char) : List Char :=
  if indexSuffix.reverse.isPrefixOf url.reverse then (url.reverse.drop 6).reverse else url

/-- `filepathToUrl` on character lists: prefix `'/'` to the
extension-stripped path, drop a trailing `"/index"`, and normalize the
empty result to `"/"`. -/
def filepathToUrlL (filepath : List Char) : List Char :=
  let url := '/' :: removeExtensionL filepath
  let url := stripTrailingIndex url
  if url = [] then ['/'] else url

/-- Convert file path to URL (src/core.js `filepathToUrl`). -/
def filepathToUrl (filepath : String) : String :=
  String.mk (filepathToUrlL filepath.data)

/-! ### Extension lookup and rendering (`renderByType`) -/

/-- Scan a reversed character list for the extension text after the last
`'.'` of the basename. -/
def extensionRev : List Char → List Char → Option (List Char)
  | acc, [] => none
  | acc, c :: tl =>
    if c = '.' then some acc
    else if c = '/' then none
    else extensionRev (acc ++ [c]) tl

/-- Modelled from the spec: the repository's `util.js` (its
`getExtension` helper) is not under `src/`; the spec selects renderers by
"the file extension of `relativePath`".  Returns the text after the last
`'.'` of the basename, or `""` when there is none. -/
def getExtension (filepath : String) : String :=
  match extensionRev [] filepath.data.reverse with
  | some extRev => String.mk extRev.reverse
  | none => ""

/-- Renders source using the renderer registered for the file's
extension; without one the source passes through (src/core.js
`renderByType`). -/
def renderByType (source : String) (filepath : String)
    (renderers : List (String × (String → String))) : String :=
  match getEntry renderers (getExtension filepath) with
  | some render => render source
  | none => source

/-- Modelled from the spec: `path.basename` used by the config loader is
an external library; keep the characters after the last `'/'`. -/
def basenameL (l : List Char) : List Char :=
  (l.reverse.takeWhile (fun c => c ≠ '/')).reverse

/-! ### JS `String.prototype.split` on character lists -/

/-- First occurrence of `sep` in `s`: `some (before, after)` where
`before` is the text preceding the first occurrence and `after` the text
following it, or `none` when `sep` does not occur. -/
def findSep (sep : List Char) : List Char → Option (List Char × List Char)
  | [] => none
  | c :: tl =>
    if sep.isPrefixOf (c :: tl) then some ([], (c :: tl).drop sep.length)
    else match findSep sep tl with
      | some (a, b) => some (c :: a, b)
      | none => none

theorem findSep_decomp {sep : List Char} :
    ∀ {s a b : List Char}, findSep sep s = some (a, b) → s = a ++ sep ++ b := by
  intro s
  induction s with
  | nil => intro a b h; simp [findSep] at h
  | cons c tl ih =>
    intro a b h
    rw [findSep] at h
    split at h
    · next hpre =>
      obtain ⟨t, ht⟩ := List.isPrefixOf_iff_prefix.mp hpre
      injection h with h'
      injection h' with h1 h2
      subst h1
      rw [← ht, ← h2, ← ht]
      simp
    · next hpre =>
      cases hf : findSep sep tl with
      | none => rw [hf] at h; exact absurd h (by simp)
      | some ab =>
        obtain ⟨a0, b0⟩ := ab
        rw [hf] at h
        injection h with h'
        injection h' with h1 h2
        subst h2
        have := ih hf
        subst h1
        simp [this]

/-- JS `s.split(sep)`: leftmost non-overlapping occurrences; an empty
separator splits into single characters. -/
def splitL (sep s : List Char) : List (List Char) :=
  if hsep : sep = [] then s.map (fun c => [c])
  else
    match hf : findSep sep s with
    | none => [s]
    | some (a, b) => a :: splitL sep b
termination_by s.length
decreasing_by
  have hd := findSep_decomp hf
  subst hd
  have : 0 < sep.length := List.length_pos.mpr hsep
  simp [List.length_append]
  omega

/-! ### Field parsing and `parsePage` -/

/-- A custom field parser: a caller-supplied transform that may throw. -/
abbrev FieldParser := Value → Except JsError Value

/-- src/core.js `parseCustomFields`: apply every registered parser to the
(possibly `undefined`) raw value of its field, collect the results into a
fresh object, and merge them over the raw attributes with `_.merge({},
attributes, parsedAttributes)`.  A throwing parser propagates its own
error. -/
def parseCustomFields (attributes : Doc) (fieldParsers : List (String × FieldParser)) :
    Except JsError Doc := do
  let parsedAttributes ← fieldParsers.foldlM
    (fun (acc : Doc) nameParser => do
      let v ← nameParser.2 (getKey attributes nameParser.1)
      pure (setKey acc nameParser.1 v))
    ([] : Doc)
  pure (mergeFields (mergeFields [] attributes) parsedAttributes)

/-- Options accepted by `parsePage`: content renderers by extension,
custom field parsers by field name, and the optional cut separator. -/
structure PageOptions where
  renderers : List (String × (String → String)) := []
  fieldParsers : List (String × FieldParser) := []
  cutTag : Option String := none

/-- `[excerpt, more] = content.split(cutTag)`: the first two split
segments (the second is `none` when the separator does not occur). -/
def cutParts (tag : String) (content : String) : String × Option String :=
  let parts := splitL tag.data content.data
  (String.mk (parts.headD []), (parts[1]?).map String.mk)

/-- src/core.js `parsePage`, with the external front-matter splitter
(`fastmatter`) abstracted away: the caller passes the split result, raw
`attributes` and raw `body`.  Parses custom fields, derives the URL,
renders the body by extension, performs the optional excerpt/more cut,
and merges the structural fields over the attributes with `_.merge`. -/
def parsePage (attributes : Doc) (body : String) (folder : String) (filepath : String)
    (options : PageOptions) : Except JsError Doc := do
  let attributes ← parseCustomFields attributes options.fieldParsers
  let url := filepathToUrl filepath
  let content := renderByType body filepath options.renderers
  let cut : Value × Value :=
    match options.cutTag with
    | some tag =>
      if tag = "" then (.undefined, .undefined)
      else
        let (excerpt, more) := cutParts tag content
        (.str excerpt, (more.map Value.str).getD .undefined)
    | none => (.undefined, .undefined)
  pure (mergeFields attributes
    [("sourcePath", .str filepath),
     ("content", .str content),
     ("excerpt", cut.1),
     ("more", cut.2),
     ("url", .str url)])

/-! ### Config loading (`readConfigFiles`, `mergeConfigs`, `loadConfig`) -/

/-- The intermediate config record: a base config plus per-language
overlays. -/
structure Configs where
  base : Doc := []
  langs : List (String × Doc) := []

/-- src/core.js `readConfigFiles`, with the external YAML reader
abstracted away: the caller passes each discovered file path together
with its parsed contents.  A file whose basename (extension removed) is
`"base"` populates the base config; any other file populates the
language overlay named after it. -/
def readConfigFiles (files : List (String × Doc)) : Configs :=
  files.foldl
    (fun configs fileEntry =>
      let name := String.mk (removeExtensionL (basenameL fileEntry.1.data))
      if name = "base" then { configs with base := fileEntry.2 }
      else { configs with langs := setKey configs.langs name fileEntry.2 })
    ⟨[], []⟩

/-- src/core.js `mergeConfigs`: starting from `{ base }`, return it alone
when there are no language overlays, and otherwise fold every language
into the same record, each language bound to `_.merge({}, base,
overlay)`. -/
def mergeConfigs (configs : Configs) : List (String × Doc) :=
  let baseConfig : List (String × Doc) := [("base", configs.base)]
  if configs.langs.isEmpty then baseConfig
  else configs.langs.foldl
    (fun merged lang => setKey merged lang.1 (mergeFields (mergeFields [] configs.base) lang.2))
    baseConfig

/-- src/core.js `loadConfig`, with file discovery and the YAML reader
abstracted away: the caller passes the discovered `*.yml` paths with
their parsed contents. -/
def loadConfig (files : List (String × Doc)) : List (String × Doc) :=
  mergeConfigs (readConfigFiles files)

/-! ### Document query layer: filter, order, group -/

/-- A filter criterion: either an exact-match value or a pattern.
Regular expressions are abstracted as their JS `test` predicate on
strings. -/
inductive Criterion where
  | value (v : Value) : Criterion
  | pattern (test : String → Bool) : Criterion

/-- One criterion checked against one document, as in the body of the
`filterDocuments` loop: a pattern is tested against the string coercion
of the (possibly `undefined`) field value; any other criterion is
compared with strict equality. -/
def criterionHolds (document : Doc) (field : String) : Criterion → Bool
  | .pattern test => test (jsToString (getKey document field))
  | .value v => jsStrictEq (getKey document field) v

/-- `true` when the document passes all criteria. -/
def passesFilters (fields : List (String × Criterion)) (document : Doc) : Bool :=
  fields.all fun fieldCriterion => criterionHolds document fieldCriterion.1 fieldCriterion.2

/-- src/core.js `filterDocuments`. -/
def filterDocuments (documents : List Doc) (fields : List (String × Criterion)) : List Doc :=
  documents.filter (passesFilters fields)

/-- Modelled from the spec: a structural total comparison on values used
as the sort key comparison (`_.sortByOrder` and the `util.js` helper
`formatFieldsForSortByOrder` are not under `src/`; the spec only requires
a stable multi-key sort). -/
def compareValues : Value → Value → Ordering
  | .num a, .num b => compare a b
  | .str a, .str b => compare a b
  | .bool a, .bool b => compare a b
  | a, b => compare (jsToString a) (jsToString b)

/-- A sort field spec: `"-name"` means descending on `name`. -/
def parseSortField (field : String) : String × Bool :=
  if field.startsWith "-" then (field.drop 1, true) else (field, false)

/-- Lexicographic multi-key comparison of two documents. -/
def compareDocs (fields : List String) (a b : Doc) : Ordering :=
  match fields with
  | [] => .eq
  | f :: tl =>
    let (name, desc) := parseSortField f
    let c := compareValues (getKey a name) (getKey b name)
    let c := if desc then c.swap else c
    match c with
    | .eq => compareDocs tl a b
    | c => c

/-- Stable insertion of `a` in front of the first strictly-greater
element. -/
def orderedInsert (le : Doc → Doc → Bool) (a : Doc) : List Doc → List Doc
  | [] => [a]
  | b :: tl => if le a b then a :: b :: tl else b :: orderedInsert le a tl

/-- Stable insertion sort. -/
def insertionSort (le : Doc → Doc → Bool) : List Doc → List Doc
  | [] => []
  | a :: tl => orderedInsert le a (insertionSort le tl)

/-- Modelled from the spec: `orderDocuments` delegates to lodash
`sortByOrder` via the missing `util.js` helper; the spec requires a
stable multi-key sort with `-`-prefixed fields descending. -/
def orderDocuments (documents : List Doc) (fields : List String) : List Doc :=
  insertionSort (fun a b => compareDocs fields a b ≠ .gt) documents

/-- Append `document` to the bucket named `key`, creating the bucket at
the end when it does not exist yet (JS `grouped[key].push(document)`
after `grouped[key] = []` on first use). -/
def bucketPush (grouped : List (String × List Doc)) (key : String) (document : Doc) :
    List (String × List Doc) :=
  match grouped with
  | [] => [(key, [document])]
  | (k, b) :: tl =>
    if k = key then (k, b ++ [document]) :: tl
    else (k, b) :: bucketPush tl key document

/-- src/core.js `gropDocuments` (sic): group documents by the values of
a field.  An array-valued field pushes the document under every element;
any other value (including `undefined` for a missing field) pushes it
under the single value.  Bucket keys are JS property keys, i.e. string
coercions of the values. -/
def gropDocuments (documents : List Doc) (field : String) : List (String × List Doc) :=
  documents.foldl
    (fun grouped document =>
      match getKey document field with
      | .arr elts => elts.foldl (fun g subValue => bucketPush g (jsToString subValue) document) grouped
      | value => bucketPush grouped (jsToString value) document)
    []

/-- The bucket of a grouping under a key, empty when absent. -/
def bucketAt (grouped : List (String × List Doc)) (key : String) : List Doc :=
  (getEntry grouped key).getD []

/-- All documents of all buckets, in bucket order. -/
def flattenBuckets (grouped : List (String × List Doc)) : List Doc :=
  grouped.flatMap (·.2)

/-- How many times `gropDocuments` files a document under `key`: once
per array element whose string coercion is `key`, or once when the
(possibly `undefined`) field value itself coerces to `key`. -/
def keyMult (field key : String) (document : Doc) : Nat :=
  match getKey document field with
  | .arr elts => elts.countP (fun e => jsToString e = key)
  | value => if jsToString value = key then 1 else 0

/-- The copies of a document that `gropDocuments` distributes over the
buckets: one per array element for a sequence-valued field, one
otherwise (also for a missing field). -/
def groupExpansion (field : String) (document : Doc) : List Doc :=
  match getKey document field with
  | .arr elts => List.replicate elts.length document
  | _ => [document]

/-! ### Paginator -/

/-- src/core.js `getPageNumberUrl`. -/
def getPageNumberUrl (urlPrefix : String) (pageNumber : Nat) : String :=
  urlPrefix ++ "/page/" ++ toString pageNumber

/-- `url.replace(/^\//, '')`: drop one leading slash. -/
def stripLeadingSlash (url : String) : String :=
  match url.data with
  | '/' :: tl => String.mk tl
  | _ => url

/-- Options of `paginate`; every field may be missing (JS
`undefined`). -/
structure PaginateOptions where
  urlPrefix : Option String := none
  documentsPerPage : Option Nat := none
  layout : Option String := none

/-- JS truthiness of an optional string: present and non-empty. -/
def truthyS : Option String → Bool
  | none => false
  | some s => s ≠ ""

/-- JS truthiness of an optional number: present and non-zero. -/
def truthyN : Option Nat → Bool
  | none => false
  | some n => n ≠ 0

/-- A synthetic listing page produced by `paginate`.  The code stores
`null` in `previousUrl`/`nextUrl` for the missing neighbours; `null` is
modelled as `none`. -/
structure PageRec (α : Type) where
  previousUrl : Option String
  nextUrl : Option String
  sourcePath : String
  documents : List α
  layout : String
  url : String

/-- src/core.js `paginate`: after checking the three required options it
produces one page per page number `1..ceil(n/k)`. -/
def paginate {α : Type} (documents : List α) (options : PaginateOptions) :
    Except JsError (List (PageRec α)) :=
  if ¬ truthyS options.urlPrefix then
    .error (.jsError "\"urlPrefix\" not specified for paginate().")
  else if ¬ truthyN options.documentsPerPage then
    .error (.jsError "\"documentsPerPage\" not specified for paginate().")
  else if ¬ truthyS options.layout then
    .error (.jsError "\"layout\" not specified for paginate().")
  else
    let urlPrefix := options.urlPrefix.getD ""
    let documentsPerPage := options.documentsPerPage.getD 0
    let layout := options.layout.getD ""
    let totalPages := (documents.length + documentsPerPage - 1) / documentsPerPage
    .ok ((List.range totalPages).map fun i =>
      let pageNumber := i + 1
      let url := getPageNumberUrl urlPrefix pageNumber
      let first := (pageNumber - 1) * documentsPerPage
      { previousUrl := if pageNumber > 1 then some (getPageNumberUrl urlPrefix (pageNumber - 1)) else none
        nextUrl := if pageNumber < totalPages then some (getPageNumberUrl urlPrefix (pageNumber + 1)) else none
        sourcePath := stripLeadingSlash url
        documents := (documents.drop first).take documentsPerPage
        layout := layout
        url := url })

/-! ### A store model for the query layer

The ownership claim of the spec (query operations never mutate their
input collection and return fresh collections) is about JS heap
references, so the four operations are additionally embedded in
store-passing style: a `Store` holds every JS array of documents ever
allocated, addressed by allocation index.  Each operation reads its
input array from the store and allocates its results as fresh arrays; no
existing array is ever written, which is exactly the frame property the
spec asserts. -/

/-- The JS heap restricted to arrays of documents: `arrays[r]` is the
array with reference `r`; allocation appends. -/
structure Store where
  arrays : List (List Doc)

/-- Dereference an array. -/
def readArr (s : Store) (r : Nat) : List Doc :=
  (s.arrays[r]?).getD []

/-- Allocate a fresh array, returning the new store and the new
reference. -/
def allocArr (s : Store) (xs : List Doc) : Store × Nat :=
  (⟨s.arrays ++ [xs]⟩, s.arrays.length)

/-- `filterDocuments` in store-passing style: `documents.filter(...)`
reads the input array and allocates the filtered result as a fresh
array. -/
def filterDocumentsST (s : Store) (r : Nat) (fields : List (String × Criterion)) :
    Store × Nat :=
  allocArr s (filterDocuments (readArr s r) fields)

/-- `orderDocuments` in store-passing style: `_.sortByOrder` reads the
input array and allocates the sorted result as a fresh array. -/
def orderDocumentsST (s : Store) (r : Nat) (fields : List String) : Store × Nat :=
  allocArr s (orderDocuments (readArr s r) fields)

/-- `gropDocuments` in store-passing style: every bucket is a fresh
array (`grouped[value] = []` on first use); the pure embedding computes
the bucket contents and each bucket is allocated in the store. -/
def gropDocumentsST (s : Store) (r : Nat) (field : String) :
    Store × List (String × Nat) :=
  (gropDocuments (readArr s r) field).foldl
    (fun acc keyBucket =>
      let (s', r') := allocArr acc.1 keyBucket.2
      (s', acc.2 ++ [(keyBucket.1, r')]))
    (s, [])

/-- A paginator page whose `documents` field is a reference to an array
in the store. -/
structure PageRef where
  previousUrl : Option String
  nextUrl : Option String
  sourcePath : String
  documents : Nat
  layout : String
  url : String

/-- `paginate` in store-passing style: every page's `documents` slice
(`documents.slice(...)` allocates) is a fresh array. -/
def paginateST (s : Store) (r : Nat) (options : PaginateOptions) :
    Except JsError (Store × List PageRef) :=
  (paginate (readArr s r) options).map fun pages =>
    pages.foldl
      (fun acc page =>
        let (s', r') := allocArr acc.1 page.documents
        (s', acc.2 ++ [{ previousUrl := page.previousUrl, nextUrl := page.nextUrl,
                         sourcePath := page.sourcePath, documents := r',
                         layout := page.layout, url := page.url }]))
      (s, [])

/-! ## Theorems

First a base of shared lemmas about the object primitives and the
lodash merge, then the claim theorems. -/

theorem getEntry_setKey_self {β : Type} (l : List (String × β)) (k : String) (v : β) :
    getEntry (setKey l k v) k = some v := by
  induction l with
  | nil => simp [setKey, getEntry]
  | cons hd tl ih =>
    by_cases h : hd.1 = k
    · simp [setKey, getEntry, h]
    · simp [setKey, getEntry, h, ih]

theorem getEntry_setKey_other {β : Type} (l : List (String × β)) (k k' : String) (v : β)
    (h : k' ≠ k) : getEntry (setKey l k' v) k = getEntry l k := by
  induction l with
  | nil => simp [setKey, getEntry, h]
  | cons hd tl ih =>
    by_cases h1 : hd.1 = k'
    · simp [setKey, getEntry, h1, h]
    · simp only [setKey, if_neg h1, getEntry]
      by_cases h2 : hd.1 = k
      · simp [h2]
      · simp [h2, ih]

theorem getEntry_append {β : Type} (l l' : List (String × β)) (k : String) :
    getEntry (l ++ l') k = match getEntry l k with
      | some v => some v
      | none => getEntry l' k := by
  induction l with
  | nil => simp [getEntry]
  | cons hd tl ih =>
    by_cases h : hd.1 = k
    · simp [getEntry, h]
    · simp [getEntry, h, ih]

/-- A scalar source value always replaces the destination in a lodash
merge. -/
theorem mergeVal_scalar (dv v : Value) (h : isScalar v = true) : mergeVal dv v = v := by
  cases dv <;> cases v <;> simp_all [isScalar, mergeVal]

/-- Reading a key after merging one source binding. -/
theorem getEntry_mergeField (d : List (String × Value)) (k' k : String) (v : Value) :
    getEntry (mergeField d k' v) k =
      if k' = k then
        (if v.isUndefined then getEntry d k
         else some (match getEntry d k with
           | some dv => mergeVal dv v
           | none => v))
      else getEntry d k := by
  rw [mergeField]
  by_cases hu : v.isUndefined
  · simp [hu]
  · simp only [hu, if_neg, Bool.false_eq_true, not_false_iff, if_false]
    by_cases hk : k' = k
    · subst hk
      cases hd : getEntry d k' with
      | some dv => simp [hd, getEntry_setKey_self]
      | none => simp [hd, getEntry_append, getEntry]
    · cases hd : getEntry d k' with
      | some dv => simp [hd, hk, getEntry_setKey_other _ _ _ _ hk]
      | none =>
        simp only [hd, if_neg hk, getEntry_append]
        cases hdk : getEntry d k with
        | some dv => simp
        | none => simp [getEntry, hk]

/-- A key that is not among an association list's keys reads as
absent. -/
theorem getEntry_eq_none_of_not_mem {β : Type} (l : List (String × β)) (k : String)
    (h : k ∉ l.map Prod.fst) : getEntry l k = none := by
  induction l with
  | nil => simp [getEntry]
  | cons hd tl ih =>
    simp only [List.map_cons, List.mem_cons, not_or] at h
    have h1 : hd.1 ≠ k := fun hc => h.1 hc.symm
    simp [getEntry, h1, ih h.2]

/-- Reading a key after a lodash object merge whose source keys are
unrepeated. -/
theorem getEntry_mergeFields (s d : List (String × Value)) (k : String)
    (hs : (s.map Prod.fst).Nodup) :
    getEntry (mergeFields d s) k =
      match getEntry s k with
      | some v =>
        if v.isUndefined then getEntry d k
        else some (match getEntry d k with
          | some dv => mergeVal dv v
          | none => v)
      | none => getEntry d k := by
  induction s generalizing d with
  | nil => simp [mergeFields, getEntry]
  | cons hd tl ih =>
    obtain ⟨k', v'⟩ := hd
    simp only [List.map_cons, List.nodup_cons] at hs
    obtain ⟨hk', htl⟩ := hs
    rw [mergeFields, ih _ htl]
    by_cases hk : k' = k
    · subst hk
      rw [getEntry_eq_none_of_not_mem tl _ hk', getEntry_mergeField]
      simp [getEntry]
    · rw [getEntry_mergeField]
      simp [getEntry, hk]

/-- Assigning a fresh key appends it at the end. -/
theorem setKey_of_not_mem {β : Type} (l : List (String × β)) (k : String) (v : β)
    (h : k ∉ l.map Prod.fst) : setKey l k v = l ++ [(k, v)] := by
  induction l with
  | nil => simp [setKey]
  | cons hd tl ih =>
    simp only [List.map_cons, List.mem_cons, not_or] at h
    have h1 : hd.1 ≠ k := fun hc => h.1 hc.symm
    simp [setKey, h1, ih h.2]

/-- Folding assignments of fresh, unrepeated keys over an accumulator
appends the new bindings in order. -/
theorem foldl_setKey {β γ : Type} (f : String → γ → β) (langs : List (String × γ))
    (acc : List (String × β))
    (hdisj : ∀ l ∈ langs.map Prod.fst, l ∉ acc.map Prod.fst)
    (hnd : (langs.map Prod.fst).Nodup) :
    langs.foldl (fun merged lang => setKey merged lang.1 (f lang.1 lang.2)) acc
      = acc ++ langs.map (fun lang => (lang.1, f lang.1 lang.2)) := by
  induction langs generalizing acc with
  | nil => simp
  | cons hd tl ih =>
    simp only [List.map_cons, List.nodup_cons] at hnd
    simp only [List.map_cons, List.mem_cons] at hdisj
    rw [List.foldl_cons, setKey_of_not_mem _ _ _ (hdisj hd.1 (Or.inl rfl)),
      ih (acc ++ [(hd.1, f hd.1 hd.2)])
        (by
          intro l hl
          simp only [List.map_append, List.mem_append, List.map_cons, List.map_nil,
            List.mem_singleton, not_or]
          exact ⟨hdisj l (Or.inr hl), fun hc => hnd.1 (hc ▸ hl)⟩)
        hnd.2]
    simp

/-- C1, corrected.  `mergeConfigs` (and hence `loadConfig`) does return
one merged config per language, each the lodash deep-merge of the base
config with the language overlay (overlay wins on scalar conflicts), and
the language bindings keep the overlays' order — but the claim's key
structure is wrong: the fold that builds the mapping starts from the
`{ base }` record, so the result also carries the top-level `base` key
in front of the language keys. -/
theorem mergeConfigs_amended (base : Doc) (langs : List (String × Doc))
    (hne : langs ≠ [])
    (hbase : "base" ∉ langs.map Prod.fst)
    (hnd : (langs.map Prod.fst).Nodup) :
    mergeConfigs ⟨base, langs⟩ =
      ("base", base) ::
        langs.map (fun lang => (lang.1, mergeFields (mergeFields [] base) lang.2)) ∧
    ∀ lang overlay, (lang, overlay) ∈ langs → (overlay.map Prod.fst).Nodup →
      ∀ k v, getEntry overlay k = some v → isScalar v = true →
        getEntry (mergeFields (mergeFields [] base) overlay) k = some v := by
  constructor
  · rw [mergeConfigs]
    simp only [List.isEmpty_eq_true, hne, if_false]
    rw [foldl_setKey (fun l o => mergeFields (mergeFields [] base) o) langs
      [("base", base)]
      (by
        intro l hl
        simp only [List.map_cons, List.map_nil, List.mem_singleton]
        exact fun hc => hbase (hc ▸ hl))
      hnd]
    simp
  · intro lang overlay hmem hovl k v hk hs
    rw [getEntry_mergeFields _ _ _ hovl, hk]
    have : v.isUndefined = false := by cases v <;> simp_all [isScalar, Value.isUndefined]
    simp only [this, Bool.false_eq_true, if_false]
    cases getEntry (mergeFields [] base) k with
    | some dv => simp [mergeVal_scalar dv v hs]
    | none => simp

/-- C1 witness: a concrete base config and one language overlay. -/
theorem mergeConfigs_amended_witness :
    mergeConfigs ⟨[("theme", Value.str "x")], [("en", [("title", Value.str "Hi")])]⟩ =
      ("base", [("theme", Value.str "x")]) ::
        [("en", [("title", Value.str "Hi")])].map
          (fun lang => (lang.1, mergeFields (mergeFields [] [("theme", Value.str "x")]) lang.2)) ∧
    getEntry (mergeFields (mergeFields [] [("theme", Value.str "x")]) [("title", Value.str "Hi")])
      "title" = some (Value.str "Hi") := by
  have h := mergeConfigs_amended [("theme", Value.str "x")] [("en", [("title", Value.str "Hi")])]
    (by simp) (by decide) (by decide)
  exact ⟨h.1, h.2 "en" [("title", Value.str "Hi")] (by simp) (by decide) "title"
    (Value.str "Hi") rfl rfl⟩

/-- C1 counterexample: `loadConfig` over `{base.yml: {theme: "x"},
en.yml: {title: "Hi"}}` returns a mapping whose keys are `base` and
`en` — the top-level `base` key the claim rules out is present. -/
theorem loadConfig_base_key_counterexample :
    (loadConfig [("configs/base.yml", [("theme", Value.str "x")]),
                 ("configs/en.yml", [("title", Value.str "Hi")])]).map Prod.fst
        = ["base", "en"] ∧
    getEntry (loadConfig [("configs/base.yml", [("theme", Value.str "x")]),
                          ("configs/en.yml", [("title", Value.str "Hi")])]) "base"
        = some [("theme", Value.str "x")] :=
  ⟨rfl, rfl⟩

/-- Stripping the extension of `<stem>.<ext>` (no dot, no slash in the
extension) leaves the stem, computed on reversed character lists. -/
theorem removeExtensionRev_append (l r : List Char) (hdot : '.' ∉ l) (hslash : '/' ∉ l) :
    removeExtensionRev (l ++ '.' :: r) = some r := by
  induction l with
  | nil => simp [removeExtensionRev]
  | cons c tl ih =>
    simp only [List.mem_cons, not_or] at hdot hslash
    have h1 : ¬(c = '.') := fun hc => hdot.1 hc.symm
    have h2 : ¬(c = '/') := fun hc => hslash.1 hc.symm
    simp only [List.cons_append, removeExtensionRev, if_neg h1, if_neg h2]
    exact ih hdot.2 hslash.2

/-- `replace(/\/index$/, '')` on a path that does end in `"/index"`. -/
theorem stripTrailingIndex_append (a : List Char) :
    stripTrailingIndex (a ++ indexSuffix) = a := by
  rw [stripTrailingIndex, if_pos, List.reverse_append]
  · have h6 : indexSuffix.reverse.length = 6 := by decide
    rw [← h6, List.drop_left, List.reverse_reverse]
  · rw [List.reverse_append]
    exact List.isPrefixOf_iff_prefix.mpr ⟨a.reverse, rfl⟩

/-- C5, corrected.  Collapsing `/index.<ext>` is equivalent to deleting
the `/index` segment — provided the rest of the path does not itself end
in `/index`: the code removes only one trailing `/index`, so on paths
like `a/index/index.md` the two sides differ.  The hypothesis
`stripTrailingIndex ('/' :: q) = '/' :: q` states that restriction in
terms of the code's own suffix-stripper; the root case
`filepathToUrl "index.md" = "/"` holds as claimed. -/
theorem filepathToUrl_index_amended (q ext : List Char)
    (hdot : '.' ∉ ext) (hslash : '/' ∉ ext)
    (hq : stripTrailingIndex ('/' :: q) = '/' :: q) :
    filepathToUrl (String.mk (q ++ indexSuffix ++ '.' :: ext))
      = filepathToUrl (String.mk (q ++ '.' :: ext)) ∧
    filepathToUrl (String.mk (q ++ indexSuffix ++ '.' :: ext)) = String.mk ('/' :: q) ∧
    filepathToUrl "index.md" = "/" := by
  have hrev : ∀ (p : List Char), (p ++ '.' :: ext).reverse = ext.reverse ++ '.' :: p.reverse := by
    intro p
    rw [List.reverse_append, List.reverse_cons]
    simp
  have hdotr : '.' ∉ ext.reverse := by simpa using hdot
  have hslashr : '/' ∉ ext.reverse := by simpa using hslash
  have hL : filepathToUrlL (q ++ indexSuffix ++ '.' :: ext) = '/' :: q := by
    rw [filepathToUrlL, removeExtensionL, hrev (q ++ indexSuffix),
      removeExtensionRev_append _ _ hdotr hslashr]
    simp only [List.reverse_append, List.reverse_reverse]
    have : ('/' : Char) :: (q ++ indexSuffix) = ('/' :: q) ++ indexSuffix := by simp
    rw [this, stripTrailingIndex_append]
    simp
  have hR : filepathToUrlL (q ++ '.' :: ext) = '/' :: q := by
    rw [filepathToUrlL, removeExtensionL, hrev q,
      removeExtensionRev_append _ _ hdotr hslashr]
    simp only [List.reverse_reverse, hq]
    simp
  refine ⟨?_, ?_, rfl⟩
  · rw [filepathToUrl, filepathToUrl]
    simp only [String.data]
    rw [hL, hR]
  · rw [filepathToUrl]
    simp only [String.data]
    rw [hL]

/-- C5 witness: `ab/index.md` and `ab.md` derive the same URL `/ab`. -/
theorem filepathToUrl_index_witness :
    filepathToUrl (String.mk (['a', 'b'] ++ indexSuffix ++ '.' :: ['m', 'd']))
      = filepathToUrl (String.mk (['a', 'b'] ++ '.' :: ['m', 'd'])) :=
  (filepathToUrl_index_amended ['a', 'b'] ['m', 'd'] (by decide) (by decide) (by decide)).1

/-- C5 counterexample: on `a/index/index.md` only the final `/index` is
collapsed, so the claimed equation with `a/index.md` (the same path with
the `/index` segment removed) fails. -/
theorem filepathToUrl_nested_index_counterexample :
    filepathToUrl "a/index/index.md" = "/a/index" ∧
    filepathToUrl "a/index.md" = "/a" ∧
    ("/a/index" : String) ≠ "/a" :=
  ⟨rfl, rfl, by decide⟩

/-- `findSep` finds the earliest occurrence: its prefix is no longer
than the prefix of any decomposition. -/
theorem findSep_min {sep : List Char} :
    ∀ {s a b : List Char}, findSep sep s = some (a, b) →
      ∀ a' b', s = a' ++ sep ++ b' → a.length ≤ a'.length := by
  intro s
  induction s with
  | nil => intro a b h; simp [findSep] at h
  | cons c tl ih =>
    intro a b h a' b' hs
    rw [findSep] at h
    split at h
    · next hpre =>
      injection h with h'
      injection h' with h1 h2
      subst h1
      simp
    · next hpre =>
      cases hf : findSep sep tl with
      | none => rw [hf] at h; exact absurd h (by simp)
      | some ab =>
        obtain ⟨a0, b0⟩ := ab
        rw [hf] at h
        injection h with h'
        injection h' with h1 h2
        cases a' with
        | nil =>
          exfalso
          apply hpre
          rw [List.nil_append] at hs
          exact List.isPrefixOf_iff_prefix.mpr ⟨b', hs.symm⟩
        | cons c' a'' =>
          have hc : tl = a'' ++ sep ++ b' := by
            simp only [List.cons_append, List.cons.injEq] at hs
            exact hs.2
          subst h1
          simp only [List.length_cons]
          exact Nat.succ_le_succ (ih hf a'' b' hc)

/-- Where a decomposition exists, `findSep` finds an occurrence. -/
theorem findSep_isSome_of_decomp {sep : List Char} (hsep : sep ≠ []) :
    ∀ (a b : List Char), findSep sep (a ++ sep ++ b) ≠ none := by
  intro a
  induction a with
  | nil =>
    intro b
    cases sep with
    | nil => exact absurd rfl hsep
    | cons c sl =>
      rw [List.nil_append, List.cons_append, findSep, if_pos]
      · simp
      · exact List.isPrefixOf_iff_prefix.mpr ⟨b, by simp⟩
  | cons c a' ih =>
    intro b
    rw [List.cons_append, List.cons_append, findSep]
    split
    · simp
    · cases hf : findSep sep (a' ++ sep ++ b) with
      | none => exact absurd hf (ih b)
      | some ab => simp

/-- `findSep` computes exactly the first occurrence: a decomposition
with a minimal prefix is what `findSep` returns. -/
theorem findSep_first {sep s : List Char} (hsep : sep ≠ []) (pre rest : List Char)
    (hs : s = pre ++ sep ++ rest)
    (hmin : ∀ a b, s = a ++ sep ++ b → pre.length ≤ a.length) :
    findSep sep s = some (pre, rest) := by
  cases hf : findSep sep s with
  | none =>
    subst hs
    exact absurd hf (findSep_isSome_of_decomp hsep pre rest)
  | some ab =>
    obtain ⟨a, b⟩ := ab
    have hd := findSep_decomp hf
    have h1 := findSep_min hf pre rest hs
    have h2 := hmin a b hd
    have hlen : a.length = pre.length := Nat.le_antisymm h1 h2
    have heq : a ++ (sep ++ b) = pre ++ (sep ++ rest) := by
      rw [← List.append_assoc, ← hd, hs, List.append_assoc]
    obtain ⟨he, htail⟩ := List.append_inj heq hlen
    have hb : b = rest := by
      have := List.append_cancel_left htail
      exact this
    rw [he, hb]

/-- `splitL` when the separator does not occur. -/
theorem splitL_of_none {sep s : List Char} (hsep : sep ≠ [])
    (hf : findSep sep s = none) : splitL sep s = [s] := by
  rw [splitL, dif_neg hsep]
  split
  · rfl
  · next a b h => rw [hf] at h; cases h

/-- `splitL` at the first occurrence. -/
theorem splitL_of_some {sep s a b : List Char} (hsep : sep ≠ [])
    (hf : findSep sep s = some (a, b)) : splitL sep s = a :: splitL sep b := by
  rw [splitL, dif_neg hsep]
  split
  · next h => rw [hf] at h; cases h
  · next a' b' h =>
    rw [hf] at h
    injection h with h'
    injection h' with h1 h2
    rw [h1, h2]

/-- `cutParts` when the tag does not occur: the whole content becomes
the excerpt and there is no `more` part. -/
theorem cutParts_none {tag content : String} (htagd : tag.data ≠ [])
    (hf : findSep tag.data content.data = none) :
    cutParts tag content = (content, none) := by
  rw [cutParts, splitL_of_none htagd hf]
  rfl

/-- `cutParts` when the tag occurs exactly once up to the end of the
`more` segment: `more` is everything after the first occurrence. -/
theorem cutParts_some_none {tag content : String} {pre rest : List Char}
    (htagd : tag.data ≠ [])
    (hf : findSep tag.data content.data = some (pre, rest))
    (hf2 : findSep tag.data rest = none) :
    cutParts tag content = (String.mk pre, some (String.mk rest)) := by
  rw [cutParts, splitL_of_some htagd hf, splitL_of_none htagd hf2]
  rfl

/-- `cutParts` when the tag occurs again after the first occurrence:
`more` is only the segment between the first and second occurrences. -/
theorem cutParts_some_some {tag content : String} {pre rest mid rest2 : List Char}
    (htagd : tag.data ≠ [])
    (hf : findSep tag.data content.data = some (pre, rest))
    (hf2 : findSep tag.data rest = some (mid, rest2)) :
    cutParts tag content = (String.mk pre, some (String.mk mid)) := by
  rw [cutParts, splitL_of_some htagd hf, splitL_of_some htagd hf2]
  simp

/-- Reading each field of the object `parsePage` returns: the merge of
the parsed attributes with the structural-field object. -/
theorem getEntry_structMerge (attrs' : Doc) (fp cont url : String) (ev mv : Value) :
    (getEntry (mergeFields attrs'
        [("sourcePath", .str fp), ("content", .str cont),
         ("excerpt", ev), ("more", mv), ("url", .str url)]) "sourcePath" = some (.str fp)) ∧
    (getEntry (mergeFields attrs'
        [("sourcePath", .str fp), ("content", .str cont),
         ("excerpt", ev), ("more", mv), ("url", .str url)]) "content" = some (.str cont)) ∧
    (getEntry (mergeFields attrs'
        [("sourcePath", .str fp), ("content", .str cont),
         ("excerpt", ev), ("more", mv), ("url", .str url)]) "url" = some (.str url)) ∧
    (ev.isUndefined = true → getEntry (mergeFields attrs'
        [("sourcePath", .str fp), ("content", .str cont),
         ("excerpt", ev), ("more", mv), ("url", .str url)]) "excerpt" = getEntry attrs' "excerpt") ∧
    (∀ e : String, ev = .str e → getEntry (mergeFields attrs'
        [("sourcePath", .str fp), ("content", .str cont),
         ("excerpt", ev), ("more", mv), ("url", .str url)]) "excerpt" = some (.str e)) ∧
    (mv.isUndefined = true → getEntry (mergeFields attrs'
        [("sourcePath", .str fp), ("content", .str cont),
         ("excerpt", ev), ("more", mv), ("url", .str url)]) "more" = getEntry attrs' "more") ∧
    (∀ m : String, mv = .str m → getEntry (mergeFields attrs'
        [("sourcePath", .str fp), ("content", .str cont),
         ("excerpt", ev), ("more", mv), ("url", .str url)]) "more" = some (.str m)) := by
  have hnd : (([("sourcePath", .str fp), ("content", .str cont),
      ("excerpt", ev), ("more", mv), ("url", .str url)] : Doc).map Prod.fst).Nodup := by
    simp
  have hstr : ∀ (dv : Value) (x : String), mergeVal dv (.str x) = .str x :=
    fun dv x => mergeVal_scalar dv (.str x) rfl
  have hsp : getEntry ([("sourcePath", .str fp), ("content", .str cont),
      ("excerpt", ev), ("more", mv), ("url", .str url)] : Doc) "sourcePath"
      = some (.str fp) := rfl
  have hco : getEntry ([("sourcePath", .str fp), ("content", .str cont),
      ("excerpt", ev), ("more", mv), ("url", .str url)] : Doc) "content"
      = some (.str cont) := rfl
  have hur : getEntry ([("sourcePath", .str fp), ("content", .str cont),
      ("excerpt", ev), ("more", mv), ("url", .str url)] : Doc) "url"
      = some (.str url) := rfl
  have hex : getEntry ([("sourcePath", .str fp), ("content", .str cont),
      ("excerpt", ev), ("more", mv), ("url", .str url)] : Doc) "excerpt"
      = some ev := rfl
  have hmo : getEntry ([("sourcePath", .str fp), ("content", .str cont),
      ("excerpt", ev), ("more", mv), ("url", .str url)] : Doc) "more"
      = some mv := rfl
  refine ⟨?_, ?_, ?_, ?_, ?_, ?_, ?_⟩
  · rw [getEntry_mergeFields _ _ _ hnd, hsp]
    cases getEntry attrs' "sourcePath" with
    | some dv => simp [Value.isUndefined, hstr]
    | none => simp [Value.isUndefined]
  · rw [getEntry_mergeFields _ _ _ hnd, hco]
    cases getEntry attrs' "content" with
    | some dv => simp [Value.isUndefined, hstr]
    | none => simp [Value.isUndefined]
  · rw [getEntry_mergeFields _ _ _ hnd, hur]
    cases getEntry attrs' "url" with
    | some dv => simp [Value.isUndefined, hstr]
    | none => simp [Value.isUndefined]
  · intro hu
    rw [getEntry_mergeFields _ _ _ hnd, hex]
    simp [hu]
  · intro e he
    subst he
    rw [getEntry_mergeFields _ _ _ hnd, hex]
    cases getEntry attrs' "excerpt" with
    | some dv => simp [Value.isUndefined, hstr]
    | none => simp [Value.isUndefined]
  · intro hu
    rw [getEntry_mergeFields _ _ _ hnd, hmo]
    simp [hu]
  · intro m hm
    subst hm
    rw [getEntry_mergeFields _ _ _ hnd, hmo]
    cases getEntry attrs' "more" with
    | some dv => simp [Value.isUndefined, hstr]
    | none => simp [Value.isUndefined]

/-- C2, corrected.  When `options.cutTag` is set and occurs in the
rendered content, `excerpt` is indeed everything before the first
occurrence; but `more` is only the text between the first and the second
occurrence (everything after the first only when the tag occurs once),
because `content.split(cutTag)` splits at every occurrence.  And when
the tag is set but does not occur, `excerpt` is still defined — it is
the whole content (`split` returns one segment) — while `more` stays
whatever the parsed front matter had under that name (`_.merge` skips
`undefined`): neither field is simply "absent". -/
theorem parsePage_cut_amended
    (attrs : Doc) (body folder filepath : String)
    (renderers : List (String × (String → String))) (fieldParsers : List (String × FieldParser))
    (tag : String) (attrs' d : Doc)
    (htag : tag ≠ "")
    (hparse : parseCustomFields attrs fieldParsers = .ok attrs')
    (hdoc : parsePage attrs body folder filepath ⟨renderers, fieldParsers, some tag⟩ = .ok d) :
    ((∀ a b : List Char, (renderByType body filepath renderers).data ≠ a ++ tag.data ++ b) →
        getEntry d "excerpt" = some (.str (renderByType body filepath renderers)) ∧
        getEntry d "more" = getEntry attrs' "more") ∧
    (∀ pre rest : List Char,
        (renderByType body filepath renderers).data = pre ++ tag.data ++ rest →
        (∀ a b : List Char, (renderByType body filepath renderers).data = a ++ tag.data ++ b →
            pre.length ≤ a.length) →
        getEntry d "excerpt" = some (.str (String.mk pre)) ∧
        ((∀ a b : List Char, rest ≠ a ++ tag.data ++ b) →
            getEntry d "more" = some (.str (String.mk rest))) ∧
        (∀ mid rest2 : List Char,
            rest = mid ++ tag.data ++ rest2 →
            (∀ a b : List Char, rest = a ++ tag.data ++ b → mid.length ≤ a.length) →
            getEntry d "more" = some (.str (String.mk mid)))) := by
  have htagd : tag.data ≠ [] := fun hd => htag (by cases tag; simp_all)
  have hd : d = mergeFields attrs'
      [("sourcePath", .str filepath),
       ("content", .str (renderByType body filepath renderers)),
       ("excerpt", .str (cutParts tag (renderByType body filepath renderers)).1),
       ("more", (((cutParts tag (renderByType body filepath renderers)).2).map Value.str).getD .undefined),
       ("url", .str (filepathToUrl filepath))] := by
    rw [parsePage] at hdoc
    simp [hparse, htag, Except.bind] at hdoc
    exact hdoc.symm
  subst hd
  obtain ⟨h1, h2, h3, h4, h5, h6, h7⟩ := getEntry_structMerge attrs' filepath
    (renderByType body filepath renderers) (filepathToUrl filepath)
    (.str (cutParts tag (renderByType body filepath renderers)).1)
    ((((cutParts tag (renderByType body filepath renderers)).2).map Value.str).getD .undefined)
  constructor
  · intro hno
    have hf : findSep tag.data (renderByType body filepath renderers).data = none := by
      cases hf' : findSep tag.data (renderByType body filepath renderers).data with
      | none => rfl
      | some ab =>
        obtain ⟨a, b⟩ := ab
        exact absurd (findSep_decomp hf') (hno a b)
    have hcut := cutParts_none htagd hf
    refine ⟨?_, ?_⟩
    · have := h5 (cutParts tag (renderByType body filepath renderers)).1 rfl
      rw [hcut] at this ⊢
      exact this
    · apply h6
      rw [hcut]
      rfl
  · intro pre rest hsplit hmin
    have hf : findSep tag.data (renderByType body filepath renderers).data = some (pre, rest) :=
      findSep_first htagd pre rest hsplit hmin
    refine ⟨?_, ?_, ?_⟩
    · cases hf2 : findSep tag.data rest with
      | none =>
        have hcut := cutParts_some_none htagd hf hf2
        have := h5 (cutParts tag (renderByType body filepath renderers)).1 rfl
        rw [hcut] at this ⊢
        exact this
      | some ab =>
        obtain ⟨mid, rest2⟩ := ab
        have hcut := cutParts_some_some htagd hf hf2
        have := h5 (cutParts tag (renderByType body filepath renderers)).1 rfl
        rw [hcut] at this ⊢
        exact this
    · intro hno2
      have hf2 : findSep tag.data rest = none := by
        cases hf2' : findSep tag.data rest with
        | none => rfl
        | some ab =>
          obtain ⟨a, b⟩ := ab
          exact absurd (findSep_decomp hf2') (hno2 a b)
      have hcut := cutParts_some_none htagd hf hf2
      exact h7 (String.mk rest) (by rw [hcut]; rfl)
    · intro mid rest2 hsplit2 hmin2
      have hf2 : findSep tag.data rest = some (mid, rest2) :=
        findSep_first htagd mid rest2 hsplit2 hmin2
      have hcut := cutParts_some_some htagd hf hf2
      exact h7 (String.mk mid) (by rw [hcut]; rfl)

/-- C2 witness: content `a!b!c` with cut tag `!` yields excerpt `a`
(before the first occurrence) and more `b` (between the first and second
occurrences). -/
theorem parsePage_cut_amended_witness :
    Except.map (fun d => (getEntry d "excerpt", getEntry d "more"))
        (parsePage [] "a!b!c" "" "f.md" ⟨[], [], some "!"⟩)
      = .ok (some (Value.str "a"), some (Value.str "b")) := by
  have hparse : parseCustomFields ([] : Doc) [] = .ok [] := by
    simp [parseCustomFields, mergeFields, pure, Except.pure, bind, Except.bind]
  have hf : findSep "!".data "a!b!c".data = some (['a'], ['b', '!', 'c']) := rfl
  have hf2 : findSep "!".data ['b', '!', 'c'] = some (['b'], ['c']) := rfl
  have hcut : cutParts "!" "a!b!c" = ("a", some "b") :=
    cutParts_some_some (by decide) hf hf2
  have hdoc : parsePage [] "a!b!c" "" "f.md" ⟨[], [], some "!"⟩
      = .ok (mergeFields [] [("sourcePath", .str "f.md"), ("content", .str "a!b!c"),
          ("excerpt", .str "a"), ("more", .str "b"), ("url", .str "/f")]) := by
    rw [parsePage, hparse]
    simp only [Except.bind]
    rw [show renderByType "a!b!c" "f.md" [] = "a!b!c" from rfl, hcut]
    rfl
  have h := parsePage_cut_amended [] "a!b!c" "" "f.md" [] [] "!" [] _
    (by decide) hparse hdoc
  have h2 := h.2 ['a'] ['b', '!', 'c'] rfl
    (by
      intro a b hab
      match a with
      | [] =>
        injection hab with hh _
        exact absurd hh (by decide)
      | c :: a' => exact Nat.succ_le_succ (Nat.zero_le _))
  have e1 : getEntry (mergeFields [] [("sourcePath", .str "f.md"), ("content", .str "a!b!c"),
      ("excerpt", .str "a"), ("more", .str "b"), ("url", .str "/f")]) "excerpt"
      = some (Value.str "a") := h2.1
  have e2 : getEntry (mergeFields [] [("sourcePath", .str "f.md"), ("content", .str "a!b!c"),
      ("excerpt", .str "a"), ("more", .str "b"), ("url", .str "/f")]) "more"
      = some (Value.str "b") :=
    h2.2.2 ['b'] ['c'] rfl
      (by
        intro a b hab
        match a with
        | [] =>
          injection hab with hh _
          exact absurd hh (by decide)
        | c :: a' => exact Nat.succ_le_succ (Nat.zero_le _))
  rw [hdoc]
  simp only [Except.map]
  rw [e1, e2]

/-- C2 counterexample: with cut tag `!` set but absent from the content
`hello`, the claim says `excerpt` is absent; the code returns the whole
content as the excerpt. -/
theorem parsePage_cut_counterexample :
    Except.map (fun d => getEntry d "excerpt")
        (parsePage [] "hello" "" "f.md" ⟨[], [], some "!"⟩)
      = .ok (some (Value.str "hello")) := by
  have hparse : parseCustomFields ([] : Doc) [] = .ok [] := by
    simp [parseCustomFields, mergeFields, pure, Except.pure, bind, Except.bind]
  have hf : findSep "!".data "hello".data = none := rfl
  have hcut : cutParts "!" "hello" = ("hello", none) :=
    cutParts_none (by decide) hf
  have hdoc : parsePage [] "hello" "" "f.md" ⟨[], [], some "!"⟩
      = .ok (mergeFields [] [("sourcePath", .str "f.md"), ("content", .str "hello"),
          ("excerpt", .str "hello"), ("more", .undefined), ("url", .str "/f")]) := by
    rw [parsePage, hparse]
    simp only [Except.bind]
    rw [show renderByType "hello" "f.md" [] = "hello" from rfl, hcut]
    rfl
  have he : getEntry (mergeFields [] [("sourcePath", .str "f.md"), ("content", .str "hello"),
      ("excerpt", .str "hello"), ("more", .undefined), ("url", .str "/f")]) "excerpt"
      = some (Value.str "hello") :=
    (getEntry_structMerge [] "f.md" "hello" "/f" (.str "hello") .undefined).2.2.2.2.1 "hello" rfl
  rw [hdoc]
  simp only [Except.map]
  rw [he]

/-- C3, corrected.  The structural fields `sourcePath`, `content` and
`url` do take precedence over same-named front-matter fields on every
collision.  But `excerpt` and `more` win only when the cut actually
produces them: with no cut tag configured both are `undefined`, and
`_.merge` skips `undefined` source values, so a front-matter field named
`excerpt` or `more` shows through instead of being replaced by the
(absent) structural value. -/
theorem parsePage_structural_amended
    (attrs : Doc) (body folder filepath : String)
    (renderers : List (String × (String → String))) (fieldParsers : List (String × FieldParser))
    (cutTag : Option String) (attrs' d : Doc)
    (hparse : parseCustomFields attrs fieldParsers = .ok attrs')
    (hdoc : parsePage attrs body folder filepath ⟨renderers, fieldParsers, cutTag⟩ = .ok d) :
    getEntry d "sourcePath" = some (.str filepath) ∧
    getEntry d "content" = some (.str (renderByType body filepath renderers)) ∧
    getEntry d "url" = some (.str (filepathToUrl filepath)) ∧
    ((cutTag = none ∨ cutTag = some "") →
        getEntry d "excerpt" = getEntry attrs' "excerpt" ∧
        getEntry d "more" = getEntry attrs' "more") := by
  cases cutTag with
  | none =>
    have hd : d = mergeFields attrs'
        [("sourcePath", .str filepath),
         ("content", .str (renderByType body filepath renderers)),
         ("excerpt", .undefined), ("more", .undefined),
         ("url", .str (filepathToUrl filepath))] := by
      rw [parsePage] at hdoc
      simp [hparse, Except.bind] at hdoc
      exact hdoc.symm
    subst hd
    obtain ⟨h1, h2, h3, h4, h5, h6, h7⟩ := getEntry_structMerge attrs' filepath
      (renderByType body filepath renderers) (filepathToUrl filepath) .undefined .undefined
    exact ⟨h1, h2, h3, fun _ => ⟨h4 rfl, h6 rfl⟩⟩
  | some tag =>
    by_cases htag : tag = ""
    · subst htag
      have hd : d = mergeFields attrs'
          [("sourcePath", .str filepath),
           ("content", .str (renderByType body filepath renderers)),
           ("excerpt", .undefined), ("more", .undefined),
           ("url", .str (filepathToUrl filepath))] := by
        rw [parsePage] at hdoc
        simp [hparse, Except.bind] at hdoc
        exact hdoc.symm
      subst hd
      obtain ⟨h1, h2, h3, h4, h5, h6, h7⟩ := getEntry_structMerge attrs' filepath
        (renderByType body filepath renderers) (filepathToUrl filepath) .undefined .undefined
      exact ⟨h1, h2, h3, fun _ => ⟨h4 rfl, h6 rfl⟩⟩
    · have hd : d = mergeFields attrs'
          [("sourcePath", .str filepath),
           ("content", .str (renderByType body filepath renderers)),
           ("excerpt", .str (cutParts tag (renderByType body filepath renderers)).1),
           ("more", (((cutParts tag (renderByType body filepath renderers)).2).map Value.str).getD .undefined),
           ("url", .str (filepathToUrl filepath))] := by
        rw [parsePage] at hdoc
        simp [hparse, htag, Except.bind] at hdoc
        exact hdoc.symm
      subst hd
      obtain ⟨h1, h2, h3, h4, h5, h6, h7⟩ := getEntry_structMerge attrs' filepath
        (renderByType body filepath renderers) (filepathToUrl filepath)
        (.str (cutParts tag (renderByType body filepath renderers)).1)
        ((((cutParts tag (renderByType body filepath renderers)).2).map Value.str).getD .undefined)
      refine ⟨h1, h2, h3, fun hc => ?_⟩
      rcases hc with hc | hc
      · cases hc
      · exact absurd (by injection hc) htag

/-- C3 witness: a front-matter `url` field is overridden by the derived
URL, and with no cut tag the (absent) cut fields show through from the
parsed attributes. -/
theorem parsePage_structural_amended_witness :
    getEntry (mergeFields [("url", Value.num 1)]
        [("sourcePath", .str "f.md"), ("content", .str "body"),
         ("excerpt", .undefined), ("more", .undefined), ("url", .str "/f")]) "url"
      = some (Value.str "/f") ∧
    getEntry (mergeFields [("url", Value.num 1)]
        [("sourcePath", .str "f.md"), ("content", .str "body"),
         ("excerpt", .undefined), ("more", .undefined), ("url", .str "/f")]) "excerpt"
      = getEntry [("url", Value.num 1)] "excerpt" := by
  have hparse : parseCustomFields [("url", Value.num 1)] [] = .ok [("url", Value.num 1)] := by
    simp [parseCustomFields, mergeFields, mergeField, getEntry, Value.isUndefined,
      pure, Except.pure, bind, Except.bind]
  have hdoc : parsePage [("url", Value.num 1)] "body" "" "f.md" ⟨[], [], none⟩
      = .ok (mergeFields [("url", Value.num 1)]
          [("sourcePath", .str "f.md"), ("content", .str "body"),
           ("excerpt", .undefined), ("more", .undefined), ("url", .str "/f")]) := by
    rw [parsePage, hparse]
    rfl
  have h := parsePage_structural_amended [("url", Value.num 1)] "body" "" "f.md" [] [] none
    [("url", Value.num 1)] _ hparse hdoc
  exact ⟨h.2.2.1, (h.2.2.2 (Or.inl rfl)).1⟩

/-- C3 counterexample: a front-matter field named `excerpt` survives
into the document when no cut tag is configured — the structural
(undefined) `excerpt` does not take precedence on this collision. -/
theorem parsePage_structural_counterexample :
    Except.map (fun d => getEntry d "excerpt")
        (parsePage [("excerpt", Value.str "spam")] "body" "" "post.md" ⟨[], [], none⟩)
      = .ok (some (Value.str "spam")) := by
  have hparse : parseCustomFields [("excerpt", Value.str "spam")] []
      = .ok [("excerpt", Value.str "spam")] := by
    simp [parseCustomFields, mergeFields, mergeField, getEntry, Value.isUndefined,
      pure, Except.pure, bind, Except.bind]
  have hdoc : parsePage [("excerpt", Value.str "spam")] "body" "" "post.md" ⟨[], [], none⟩
      = .ok (mergeFields [("excerpt", Value.str "spam")]
          [("sourcePath", .str "post.md"), ("content", .str "body"),
           ("excerpt", .undefined), ("more", .undefined), ("url", .str "/post")]) := by
    rw [parsePage, hparse]
    rfl
  have he : getEntry (mergeFields [("excerpt", Value.str "spam")]
      [("sourcePath", .str "post.md"), ("content", .str "body"),
       ("excerpt", .undefined), ("more", .undefined), ("url", .str "/post")]) "excerpt"
      = getEntry [("excerpt", Value.str "spam")] "excerpt" :=
    (getEntry_structMerge [("excerpt", Value.str "spam")] "post.md" "body" "/post"
      .undefined .undefined).2.2.2.1 rfl
  rw [hdoc]
  simp only [Except.map]
  rw [he]
  rfl

/-- The step of `parseCustomFields`' loop over the registered parsers. -/
def parseFieldStep (attrs : Doc) (acc : Doc) (nameParser : String × FieldParser) :
    Except JsError Doc := do
  let v ← nameParser.2 (getKey attrs nameParser.1)
  pure (setKey acc nameParser.1 v)

/-- The loop of `parseCustomFields` is the `foldlM` of its step. -/
theorem parseCustomFields_eq (attrs : Doc) (fieldParsers : List (String × FieldParser)) :
    parseCustomFields attrs fieldParsers =
      (fieldParsers.foldlM (parseFieldStep attrs) ([] : Doc)).bind
        (fun parsed => .ok (mergeFields (mergeFields [] attrs) parsed)) := by
  rw [parseCustomFields]
  rfl

/-- An error of the parser loop always is the error of one of the
parsers, applied to its field's raw value. -/
theorem foldlM_parseFieldStep_error (attrs : Doc) :
    ∀ (ps : List (String × FieldParser)) (acc : Doc) (e : JsError),
      ps.foldlM (parseFieldStep attrs) acc = .error e →
      ∃ p ∈ ps, p.2 (getKey attrs p.1) = .error e := by
  intro ps
  induction ps with
  | nil => intro acc e h; simp [List.foldlM_nil, pure, Except.pure] at h
  | cons hd tl ih =>
    intro acc e h
    rw [List.foldlM_cons] at h
    cases hp : hd.2 (getKey attrs hd.1) with
    | error e' =>
      have hstep : parseFieldStep attrs acc hd = .error e' := by
        rw [parseFieldStep, hp]
        rfl
      rw [hstep] at h
      have h2 : (Except.error e' : Except JsError Doc) = Except.error e := h
      injection h2 with h'
      exact ⟨hd, List.mem_cons_self _ _, by rw [hp, h']⟩
    | ok v =>
      have hstep : parseFieldStep attrs acc hd = .ok (setKey acc hd.1 v) := by
        rw [parseFieldStep, hp]
        rfl
      rw [hstep] at h
      have h2 : tl.foldlM (parseFieldStep attrs) (setKey acc hd.1 v) = .error e := h
      obtain ⟨p, hmem, hperr⟩ := ih _ _ h2
      exact ⟨p, List.mem_cons_of_mem _ hmem, hperr⟩

/-- When every parser before the failing one succeeds, the loop fails
with exactly the failing parser's error. -/
theorem foldlM_parseFieldStep_first_error (attrs : Doc) (name : String) (p : FieldParser)
    (post : List (String × FieldParser)) (e : JsError)
    (hp : p (getKey attrs name) = .error e) :
    ∀ (pre : List (String × FieldParser)) (acc : Doc),
      (∀ q ∈ pre, ∃ v, q.2 (getKey attrs q.1) = .ok v) →
      (pre ++ (name, p) :: post).foldlM (parseFieldStep attrs) acc = .error e := by
  intro pre
  induction pre with
  | nil =>
    intro acc hok
    rw [List.nil_append, List.foldlM_cons]
    have hstep : parseFieldStep attrs acc (name, p) = .error e := by
      rw [parseFieldStep]
      simp only
      rw [hp]
      rfl
    rw [hstep]
    rfl
  | cons q tl ih =>
    intro acc hok
    rw [List.cons_append, List.foldlM_cons]
    obtain ⟨v, hv⟩ := hok q (List.mem_cons_self _ _)
    have hstep : parseFieldStep attrs acc q = .ok (setKey acc q.1 v) := by
      rw [parseFieldStep, hv]
      rfl
    rw [hstep]
    exact ih _ (fun r hr => hok r (List.mem_cons_of_mem _ hr))

/-- C4, corrected.  A throwing transform does make `parseCustomFields`
(and hence `parsePage`) fail, and the first failing transform's error is
the result — but the code has no try/catch and no `FieldParseError`: the
transform's own error propagates unchanged, tagged with nothing. -/
theorem parseCustomFields_error_amended (attrs : Doc)
    (fieldParsers : List (String × FieldParser)) :
    (∀ e, parseCustomFields attrs fieldParsers = .error e →
        ∃ p ∈ fieldParsers, p.2 (getKey attrs p.1) = .error e) ∧
    (∀ (pre : List (String × FieldParser)) (name : String) (p : FieldParser)
        (post : List (String × FieldParser)) (e : JsError),
        fieldParsers = pre ++ (name, p) :: post →
        (∀ q ∈ pre, ∃ v, q.2 (getKey attrs q.1) = .ok v) →
        p (getKey attrs name) = .error e →
        parseCustomFields attrs fieldParsers = .error e) := by
  constructor
  · intro e h
    rw [parseCustomFields_eq] at h
    cases hf : fieldParsers.foldlM (parseFieldStep attrs) ([] : Doc) with
    | error e' =>
      rw [hf] at h
      simp only [Except.bind] at h
      injection h with h'
      exact foldlM_parseFieldStep_error attrs fieldParsers [] e (h' ▸ hf)
    | ok parsed =>
      rw [hf] at h
      simp only [Except.bind] at h
      cases h
  · intro pre name p post e hsplit hok hp
    rw [parseCustomFields_eq, hsplit,
      foldlM_parseFieldStep_first_error attrs name p post e hp pre [] hok]
    rfl

/-- C4 witness: a parser list whose first parser succeeds and whose
second throws; `parseCustomFields` fails with the second parser's own
error. -/
theorem parseCustomFields_error_amended_witness :
    parseCustomFields []
        [("ok1", fun v => .ok v), ("date", fun _ => .error (.jsError "boom"))]
      = .error (.jsError "boom") :=
  (parseCustomFields_error_amended []
      [("ok1", fun v => .ok v), ("date", fun _ => .error (.jsError "boom"))]).2
    [("ok1", fun v => .ok v)] "date" (fun _ => .error (.jsError "boom")) [] (.jsError "boom")
    rfl
    (by
      intro q hq
      rw [List.mem_singleton] at hq
      subst hq
      exact ⟨.undefined, rfl⟩)
    rfl

/-- C4 counterexample: a transform that throws a plain error named
`boom` makes `parseCustomFields` fail with exactly that error — not
with a `FieldParseError` tagged with the field name `date`. -/
theorem parseCustomFields_error_counterexample :
    parseCustomFields [] [("date", fun _ => .error (.jsError "boom"))]
      = .error (.jsError "boom") ∧
    (JsError.jsError "boom").isFieldParseError = false :=
  ⟨rfl, rfl⟩

/-- Pushing a document into a bucket extends exactly that bucket at its
end. -/
theorem bucketAt_bucketPush (g : List (String × List Doc)) (k' k : String) (d : Doc) :
    bucketAt (bucketPush g k' d) k = bucketAt g k ++ (if k' = k then [d] else []) := by
  induction g with
  | nil => by_cases h : k' = k <;> simp [bucketPush, bucketAt, getEntry, h]
  | cons hd tl ih =>
    obtain ⟨k0, b0⟩ := hd
    by_cases h0 : k0 = k'
    · subst h0
      by_cases hk : k0 = k
      · subst hk
        simp [bucketPush, bucketAt, getEntry]
      · simp [bucketPush, bucketAt, getEntry, hk]
    · by_cases hk : k0 = k
      · subst hk
        have hk' : ¬(k' = k0) := fun h => h0 h.symm
        simp [bucketPush, bucketAt, getEntry, h0, hk']
      · have ih2 := ih
        simp only [bucketAt] at ih2
        simp [bucketPush, bucketAt, getEntry, h0, hk, ih2]

/-- Pushing a document once per array element fills the bucket of `key`
with one copy per element coercing to `key`. -/
theorem bucketAt_pushElts (field key : String) (d : Doc) :
    ∀ (elts : List Value) (g : List (String × List Doc)),
      bucketAt (elts.foldl (fun g' e => bucketPush g' (jsToString e) d) g) key
        = bucketAt g key ++ List.replicate (elts.countP (fun e => jsToString e = key)) d := by
  intro elts
  induction elts with
  | nil => intro g; simp
  | cons e tl ih =>
    intro g
    rw [List.foldl_cons, ih, bucketAt_bucketPush, List.countP_cons]
    by_cases h : jsToString e = key
    · simp [h, List.append_assoc, List.replicate_succ]
    · simp [h]

/-- The heart of the grouping: folding documents into buckets extends
the bucket of every key by the documents' multiplicities, in encounter
order. -/
theorem bucketAt_gropFold (field key : String) :
    ∀ (documents : List Doc) (acc : List (String × List Doc)),
      bucketAt (documents.foldl (fun grouped document =>
          match getKey document field with
          | .arr elts =>
            elts.foldl (fun g subValue => bucketPush g (jsToString subValue) document) grouped
          | value => bucketPush grouped (jsToString value) document) acc) key
        = bucketAt acc key
          ++ documents.flatMap (fun d => List.replicate (keyMult field key d) d) := by
  intro documents
  induction documents with
  | nil => intro acc; simp
  | cons d tl ih =>
    intro acc
    rw [List.foldl_cons, ih]
    have hstep : bucketAt (match getKey d field with
        | .arr elts =>
          elts.foldl (fun g subValue => bucketPush g (jsToString subValue) d) acc
        | value => bucketPush acc (jsToString value) d) key
        = bucketAt acc key ++ List.replicate (keyMult field key d) d := by
      cases hv : getKey d field with
      | arr elts =>
        simp only [keyMult, hv]
        exact bucketAt_pushElts field key d elts acc
      | undefined =>
        simp only [keyMult, hv]
        rw [bucketAt_bucketPush]
        by_cases h : jsToString Value.undefined = key <;> simp [h]
      | null =>
        simp only [keyMult, hv]
        rw [bucketAt_bucketPush]
        by_cases h : jsToString Value.null = key <;> simp [h]
      | bool b =>
        simp only [keyMult, hv]
        rw [bucketAt_bucketPush]
        by_cases h : jsToString (Value.bool b) = key <;> simp [h]
      | num n =>
        simp only [keyMult, hv]
        rw [bucketAt_bucketPush]
        by_cases h : jsToString (Value.num n) = key <;> simp [h]
      | str s =>
        simp only [keyMult, hv]
        rw [bucketAt_bucketPush]
        by_cases h : jsToString (Value.str s) = key <;> simp [h]
      | obj fields =>
        simp only [keyMult, hv]
        rw [bucketAt_bucketPush]
        by_cases h : jsToString (Value.obj fields) = key <;> simp [h]
    rw [hstep, List.append_assoc, List.flatMap_cons]

/-- `bucketPush` keeps every bucket non-empty. -/
theorem bucketPush_nonempty (g : List (String × List Doc)) (k' : String) (d : Doc)
    (h : ∀ p ∈ g, p.2 ≠ []) : ∀ p ∈ bucketPush g k' d, p.2 ≠ [] := by
  induction g with
  | nil =>
    intro p hp
    simp only [bucketPush, List.mem_singleton] at hp
    subst hp
    simp
  | cons hd tl ih =>
    obtain ⟨k0, b0⟩ := hd
    intro p hp
    by_cases h0 : k0 = k'
    · simp only [bucketPush, if_pos h0, List.mem_cons] at hp
      rcases hp with hp | hp
      · subst hp; simp
      · exact h p (List.mem_cons_of_mem _ hp)
    · simp only [bucketPush, if_neg h0, List.mem_cons] at hp
      rcases hp with hp | hp
      · subst hp; exact h (k0, b0) (List.mem_cons_self _ _)
      · exact ih (fun q hq => h q (List.mem_cons_of_mem _ hq)) p hp

/-- The grouping fold keeps every bucket non-empty. -/
theorem gropFold_nonempty (field : String) :
    ∀ (documents : List Doc) (acc : List (String × List Doc)),
      (∀ p ∈ acc, p.2 ≠ []) →
      ∀ p ∈ documents.foldl (fun grouped document =>
          match getKey document field with
          | .arr elts =>
            elts.foldl (fun g subValue => bucketPush g (jsToString subValue) document) grouped
          | value => bucketPush grouped (jsToString value) document) acc, p.2 ≠ [] := by
  have hinner : ∀ (d : Doc) (elts : List Value) (g : List (String × List Doc)),
      (∀ p ∈ g, p.2 ≠ []) →
      ∀ p ∈ elts.foldl (fun g' e => bucketPush g' (jsToString e) d) g, p.2 ≠ [] := by
    intro d elts
    induction elts with
    | nil => intro g hg; exact hg
    | cons e tl ih =>
      intro g hg
      rw [List.foldl_cons]
      exact ih _ (bucketPush_nonempty _ _ _ hg)
  intro documents
  induction documents with
  | nil => intro acc hacc; exact hacc
  | cons d tl ih =>
    intro acc hacc
    rw [List.foldl_cons]
    apply ih
    cases hv : getKey d field with
    | arr elts => exact hinner d elts acc hacc
    | undefined => exact bucketPush_nonempty _ _ _ hacc
    | null => exact bucketPush_nonempty _ _ _ hacc
    | bool b => exact bucketPush_nonempty _ _ _ hacc
    | num n => exact bucketPush_nonempty _ _ _ hacc
    | str s => exact bucketPush_nonempty _ _ _ hacc
    | obj fields => exact bucketPush_nonempty _ _ _ hacc

/-- A present key is a member binding. -/
theorem getEntry_mem {β : Type} :
    ∀ (l : List (String × β)) (k : String) (v : β), getEntry l k = some v → (k, v) ∈ l := by
  intro l
  induction l with
  | nil => intro k v h; simp [getEntry] at h
  | cons hd tl ih =>
    intro k v h
    rw [getEntry] at h
    split at h
    · next heq =>
      injection h with h'
      subst h'
      exact heq ▸ List.mem_cons_self _ _
    · exact List.mem_cons_of_mem _ (ih k v h)

/-- Pushing into a bucket permutes the flattened grouping extended by
the pushed document. -/
theorem flattenBuckets_bucketPush (g : List (String × List Doc)) (k : String) (d : Doc) :
    (flattenBuckets (bucketPush g k d)).Perm (flattenBuckets g ++ [d]) := by
  induction g with
  | nil => simp [bucketPush, flattenBuckets]
  | cons hd tl ih =>
    obtain ⟨k0, b0⟩ := hd
    by_cases h0 : k0 = k
    · simp only [bucketPush, if_pos h0, flattenBuckets, List.flatMap_cons, List.append_assoc]
      exact List.Perm.append_left b0 List.perm_append_comm
    · simp only [bucketPush, if_neg h0, flattenBuckets, List.flatMap_cons, List.append_assoc]
      exact List.Perm.append_left b0 ih

/-- Pushing a document once per array element permutes the flattened
grouping extended by one copy per element. -/
theorem flattenBuckets_pushElts (d : Doc) :
    ∀ (elts : List Value) (g : List (String × List Doc)),
      (flattenBuckets (elts.foldl (fun g' e => bucketPush g' (jsToString e) d) g)).Perm
        (flattenBuckets g ++ List.replicate elts.length d) := by
  intro elts
  induction elts with
  | nil => intro g; simp
  | cons e tl ih =>
    intro g
    rw [List.foldl_cons]
    refine (ih _).trans ?_
    refine (List.Perm.append_right _ (flattenBuckets_bucketPush g (jsToString e) d)).trans ?_
    rw [List.append_assoc, List.singleton_append, List.length_cons, List.replicate_succ]

/-- The grouping fold permutes the flattened grouping extended by all
documents' expansions. -/
theorem flattenBuckets_gropFold (field : String) :
    ∀ (documents : List Doc) (acc : List (String × List Doc)),
      (flattenBuckets (documents.foldl (fun grouped document =>
          match getKey document field with
          | .arr elts =>
            elts.foldl (fun g subValue => bucketPush g (jsToString subValue) document) grouped
          | value => bucketPush grouped (jsToString value) document) acc)).Perm
        (flattenBuckets acc ++ documents.flatMap (groupExpansion field)) := by
  intro documents
  induction documents with
  | nil => intro acc; simp
  | cons d tl ih =>
    intro acc
    rw [List.foldl_cons, List.flatMap_cons]
    refine (ih _).trans ?_
    have hstep : (flattenBuckets (match getKey d field with
        | .arr elts =>
          elts.foldl (fun g subValue => bucketPush g (jsToString subValue) d) acc
        | value => bucketPush acc (jsToString value) d)).Perm
        (flattenBuckets acc ++ groupExpansion field d) := by
      cases hv : getKey d field with
      | arr elts =>
        simp only [groupExpansion, hv]
        exact flattenBuckets_pushElts d elts acc
      | undefined => simp only [groupExpansion, hv]; exact flattenBuckets_bucketPush _ _ _
      | null => simp only [groupExpansion, hv]; exact flattenBuckets_bucketPush _ _ _
      | bool b => simp only [groupExpansion, hv]; exact flattenBuckets_bucketPush _ _ _
      | num n => simp only [groupExpansion, hv]; exact flattenBuckets_bucketPush _ _ _
      | str s => simp only [groupExpansion, hv]; exact flattenBuckets_bucketPush _ _ _
      | obj fields => simp only [groupExpansion, hv]; exact flattenBuckets_bucketPush _ _ _
    refine (List.Perm.append_right _ hstep).trans ?_
    rw [List.append_assoc]

/-- C6, corrected.  `gropDocuments` is total over all input documents,
not only those on which the field is defined: a document without the
field is filed once under the key `"undefined"` (the string coercion of
the missing value).  With that correction the grouping is the claimed
partition refinement: the bucket of every key holds, in encounter
order, one copy of each document per array element coercing to that key
(or one copy for a scalar — or missing — value coercing to it), every
present bucket is non-empty, and the concatenation of all buckets is a
permutation of the documents' expansions (array-valued: one copy per
element, so a document with an empty array appears nowhere; any other
value: one copy). -/
theorem gropDocuments_amended (documents : List Doc) (field : String) :
    (∀ key, bucketAt (gropDocuments documents field) key
        = documents.flatMap (fun d => List.replicate (keyMult field key d) d)) ∧
    (∀ key b, getEntry (gropDocuments documents field) key = some b → b ≠ []) ∧
    (flattenBuckets (gropDocuments documents field)).Perm
      (documents.flatMap (groupExpansion field)) := by
  refine ⟨?_, ?_, ?_⟩
  · intro key
    have h := bucketAt_gropFold field key documents []
    rw [gropDocuments]
    rw [h]
    simp [bucketAt, getEntry]
  · intro key b hb
    have hne := gropFold_nonempty field documents [] (by simp)
    rw [gropDocuments] at hb
    exact hne (key, b) (getEntry_mem _ key b hb)
  · have h := flattenBuckets_gropFold field documents []
    rw [gropDocuments]
    refine h.trans ?_
    simp [flattenBuckets]

/-- C6 witness: a document whose `tags` field holds the array
`["x", "x"]` appears twice, adjacently, in the bucket of `x`. -/
theorem gropDocuments_amended_witness :
    bucketAt (gropDocuments [[("tags", Value.arr [Value.str "x", Value.str "x"])]] "tags") "x"
      = [[("tags", Value.arr [Value.str "x", Value.str "x"])],
         [("tags", Value.arr [Value.str "x", Value.str "x"])]] := by
  have h := (gropDocuments_amended [[("tags", Value.arr [Value.str "x", Value.str "x"])]]
    "tags").1 "x"
  rw [h]
  simp [keyMult, getKey, getEntry, jsToString, List.countP_cons]

/-- C6 counterexample: grouping `[{t: "a"}, {}]` by `t` files the
field-less document under `"undefined"`, so the union of the buckets is
both input documents — not the input restricted to documents with the
field defined. -/
theorem gropDocuments_counterexample :
    gropDocuments [[("t", Value.str "a")], []] "t"
      = [("a", [[("t", Value.str "a")]]), ("undefined", [[]])] ∧
    getKey ([] : Doc) "t" = Value.undefined ∧
    flattenBuckets (gropDocuments [[("t", Value.str "a")], []] "t")
      = [[("t", Value.str "a")], []] := by
  have h : gropDocuments [[("t", Value.str "a")], []] "t"
      = [("a", [[("t", Value.str "a")]]), ("undefined", [[]])] := by
    simp [gropDocuments, bucketPush, getKey, getEntry, jsToString]
  refine ⟨h, rfl, ?_⟩
  rw [h]
  simp [flattenBuckets]

/-- C7, confirmed.  With valid options, `paginate` produces exactly
`ceil(n/k)` pages, with the claimed url, neighbour links (`null`,
modelled as `none`, for the missing neighbours), document slice,
`sourcePath` and layout on every page. -/
theorem paginate_spec {α : Type} (docs : List α) (up lay : String) (k : Nat)
    (hup : up ≠ "") (hk : k ≠ 0) (hlay : lay ≠ "") :
    ∃ ps : List (PageRec α), paginate docs ⟨some up, some k, some lay⟩ = .ok ps ∧
      ps.length = (docs.length + k - 1) / k ∧
      ∀ i (h : i < ps.length),
        ps[i].url = up ++ "/page/" ++ toString (i + 1) ∧
        ps[i].previousUrl = (if i = 0 then none else some (up ++ "/page/" ++ toString i)) ∧
        ps[i].nextUrl = (if i + 1 = ps.length then none
          else some (up ++ "/page/" ++ toString (i + 2))) ∧
        ps[i].documents = (docs.drop (i * k)).take k ∧
        ps[i].sourcePath = stripLeadingSlash ps[i].url ∧
        ps[i].layout = lay := by
  refine ⟨(List.range ((docs.length + k - 1) / k)).map (fun i =>
    { previousUrl := if i + 1 > 1 then some (getPageNumberUrl up (i + 1 - 1)) else none
      nextUrl := if i + 1 < (docs.length + k - 1) / k
        then some (getPageNumberUrl up (i + 1 + 1)) else none
      sourcePath := stripLeadingSlash (getPageNumberUrl up (i + 1))
      documents := (docs.drop ((i + 1 - 1) * k)).take k
      layout := lay
      url := getPageNumberUrl up (i + 1) }), ?_, ?_, ?_⟩
  · rw [paginate]
    rw [if_neg (by simp [truthyS, hup]), if_neg (by simp [truthyN, hk]),
      if_neg (by simp [truthyS, hlay])]
    rfl
  · simp
  · intro i h
    simp only [List.length_map, List.length_range] at h
    rw [List.getElem_map, List.getElem_range]
    refine ⟨rfl, ?_, ?_, ?_, rfl, rfl⟩
    · cases i with
      | zero => simp
      | succ j => simp [getPageNumberUrl]
    · simp only [List.length_map, List.length_range]
      by_cases he : i + 1 = (docs.length + k - 1) / k
      · simp [he]
      · have hlt : i + 1 < (docs.length + k - 1) / k := by omega
        simp [he, hlt, getPageNumberUrl]
    · simp

/-- C7 witness: five documents, two per page, give exactly three
pages. -/
theorem paginate_spec_witness :
    Except.map List.length (paginate [10, 20, 30, 40, 50] ⟨some "/blog", some 2, some "list"⟩)
      = .ok (([10, 20, 30, 40, 50].length + 2 - 1) / 2) := by
  obtain ⟨ps, hok, hlen, hfields⟩ :=
    paginate_spec [10, 20, 30, 40, 50] "/blog" "list" 2 (by decide) (by decide) (by decide)
  rw [hok]
  simp only [Except.map]
  rw [hlen]

/-- C8, confirmed.  `paginate` returns normally exactly when all three
options are present and truthy, and otherwise throws the error naming
the (first, in the order urlPrefix, documentsPerPage, layout) missing
option. -/
theorem paginate_options_check {α : Type} (docs : List α) (opts : PaginateOptions) :
    ((∃ ps, paginate docs opts = .ok ps) ↔
      (truthyS opts.urlPrefix = true ∧ truthyN opts.documentsPerPage = true ∧
        truthyS opts.layout = true)) ∧
    (∀ e, paginate docs opts = .error e →
      (truthyS opts.urlPrefix = false ∧
        e = .jsError "\"urlPrefix\" not specified for paginate().") ∨
      (truthyN opts.documentsPerPage = false ∧
        e = .jsError "\"documentsPerPage\" not specified for paginate().") ∨
      (truthyS opts.layout = false ∧
        e = .jsError "\"layout\" not specified for paginate().")) := by
  by_cases h1 : truthyS opts.urlPrefix = true
  case neg =>
    have hpe : paginate (α := α) docs opts
        = .error (.jsError "\"urlPrefix\" not specified for paginate().") := by
      rw [paginate, if_pos h1]
    constructor
    · constructor
      · rintro ⟨ps, hps⟩
        rw [hpe] at hps
        cases hps
      · rintro ⟨ha, -, -⟩
        exact absurd ha h1
    · intro e he
      rw [hpe] at he
      injection he with h'
      exact Or.inl ⟨by simpa using h1, h'.symm⟩
  case pos =>
  by_cases h2 : truthyN opts.documentsPerPage = true
  case neg =>
    have hpe : paginate (α := α) docs opts
        = .error (.jsError "\"documentsPerPage\" not specified for paginate().") := by
      rw [paginate, if_neg (not_not_intro h1), if_pos h2]
    constructor
    · constructor
      · rintro ⟨ps, hps⟩
        rw [hpe] at hps
        cases hps
      · rintro ⟨-, ha, -⟩
        exact absurd ha h2
    · intro e he
      rw [hpe] at he
      injection he with h'
      exact Or.inr (Or.inl ⟨by simpa using h2, h'.symm⟩)
  case pos =>
  by_cases h3 : truthyS opts.layout = true
  case neg =>
    have hpe : paginate (α := α) docs opts
        = .error (.jsError "\"layout\" not specified for paginate().") := by
      rw [paginate, if_neg (not_not_intro h1), if_neg (not_not_intro h2), if_pos h3]
    constructor
    · constructor
      · rintro ⟨ps, hps⟩
        rw [hpe] at hps
        cases hps
      · rintro ⟨-, -, ha⟩
        exact absurd ha h3
    · intro e he
      rw [hpe] at he
      injection he with h'
      exact Or.inr (Or.inr ⟨by simpa using h3, h'.symm⟩)
  case pos =>
  have hpo : ∃ ps, paginate (α := α) docs opts = .ok ps := by
    rw [paginate, if_neg (not_not_intro h1), if_neg (not_not_intro h2),
      if_neg (not_not_intro h3)]
    exact ⟨_, rfl⟩
  constructor
  · exact ⟨fun _ => ⟨h1, h2, h3⟩, fun _ => hpo⟩
  · intro e he
    obtain ⟨ps, hps⟩ := hpo
    rw [hps] at he
    cases he

/-- C8 witness: with `documentsPerPage` missing, `paginate` throws the
error naming `documentsPerPage`. -/
theorem paginate_options_check_witness :
    (truthyS (some "/b") = false ∧
      JsError.jsError "\"documentsPerPage\" not specified for paginate()."
        = .jsError "\"urlPrefix\" not specified for paginate().") ∨
    (truthyN (none : Option Nat) = false ∧
      JsError.jsError "\"documentsPerPage\" not specified for paginate()."
        = .jsError "\"documentsPerPage\" not specified for paginate().") ∨
    (truthyS (some "list") = false ∧
      JsError.jsError "\"documentsPerPage\" not specified for paginate()."
        = .jsError "\"layout\" not specified for paginate().") :=
  (paginate_options_check ([] : List Nat) ⟨some "/b", none, some "list"⟩).2
    (.jsError "\"documentsPerPage\" not specified for paginate().") rfl

/-- Allocation does not change any existing array. -/
theorem readArr_allocArr (s : Store) (xs : List Doc) (j : Nat) (h : j < s.arrays.length) :
    readArr (allocArr s xs).1 j = readArr s j := by
  simp [readArr, allocArr, List.getElem?_append, h]

/-- A fold that only allocates fresh arrays (as the grouping and the
paginator do for their buckets and slices) leaves every existing array
unchanged and hands out only fresh references. -/
theorem allocFold_frame {γ δ : Type} (f : γ → List Doc) (g : γ → Nat → δ) (ref : δ → Nat)
    (href : ∀ x r, ref (g x r) = r) (n : Nat) :
    ∀ (xs : List γ) (s0 : Store) (acc : List δ),
      n ≤ s0.arrays.length →
      (∀ j, j < n →
        readArr (xs.foldl (fun a x =>
          let (s', r') := allocArr a.1 (f x)
          (s', a.2 ++ [g x r'])) (s0, acc)).1 j = readArr s0 j) ∧
      n ≤ (xs.foldl (fun a x =>
          let (s', r') := allocArr a.1 (f x)
          (s', a.2 ++ [g x r'])) (s0, acc)).1.arrays.length ∧
      (∀ p ∈ (xs.foldl (fun a x =>
          let (s', r') := allocArr a.1 (f x)
          (s', a.2 ++ [g x r'])) (s0, acc)).2, p ∈ acc ∨ n ≤ ref p) := by
  intro xs
  induction xs with
  | nil =>
    intro s0 acc hn
    exact ⟨fun j hj => rfl, hn, fun p hp => Or.inl hp⟩
  | cons x tl ih =>
    intro s0 acc hn
    rw [List.foldl_cons]
    have hs1 : n ≤ (allocArr s0 (f x)).1.arrays.length := by
      simp only [allocArr, List.length_append, List.length_cons, List.length_nil]
      omega
    obtain ⟨hreads, hlen, hmem⟩ := ih (allocArr s0 (f x)).1 (acc ++ [g x s0.arrays.length]) hs1
    refine ⟨?_, hlen, ?_⟩
    · intro j hj
      exact (hreads j hj).trans (readArr_allocArr s0 (f x) j (Nat.lt_of_lt_of_le hj hn))
    · intro p hp
      rcases hmem p hp with hin | hge
      · rw [List.mem_append, List.mem_singleton] at hin
        rcases hin with hin | hin
        · exact Or.inl hin
        · subst hin
          rw [href]
          exact Or.inr hn
      · exact Or.inr hge

/-- C9, confirmed.  In the store-passing embedding, `filterDocuments`,
`orderDocuments`, `gropDocuments` and `paginate` leave every existing
array — in particular their input collection — unchanged: they only
read the input and allocate their results as fresh arrays whose
references did not previously exist. -/
theorem queryLayer_frame (s : Store) (r : Nat) (crits : List (String × Criterion))
    (ofields : List String) (gfield : String) (opts : PaginateOptions) :
    ((∀ j, j < s.arrays.length → readArr (filterDocumentsST s r crits).1 j = readArr s j) ∧
      s.arrays.length ≤ (filterDocumentsST s r crits).2) ∧
    ((∀ j, j < s.arrays.length → readArr (orderDocumentsST s r ofields).1 j = readArr s j) ∧
      s.arrays.length ≤ (orderDocumentsST s r ofields).2) ∧
    ((∀ j, j < s.arrays.length → readArr (gropDocumentsST s r gfield).1 j = readArr s j) ∧
      (∀ p ∈ (gropDocumentsST s r gfield).2, s.arrays.length ≤ p.2)) ∧
    (∀ s' pages, paginateST s r opts = .ok (s', pages) →
      (∀ j, j < s.arrays.length → readArr s' j = readArr s j) ∧
      (∀ p ∈ pages, s.arrays.length ≤ p.documents)) := by
  refine ⟨⟨?_, ?_⟩, ⟨?_, ?_⟩, ⟨?_, ?_⟩, ?_⟩
  · intro j hj
    exact readArr_allocArr s _ j hj
  · exact Nat.le_refl _
  · intro j hj
    exact readArr_allocArr s _ j hj
  · exact Nat.le_refl _
  · intro j hj
    have h := allocFold_frame (fun kb : String × List Doc => kb.2)
      (fun kb r' => (kb.1, r')) (fun p => p.2) (fun x r => rfl) s.arrays.length
      (gropDocuments (readArr s r) gfield) s [] (Nat.le_refl _)
    exact h.1 j hj
  · intro p hp
    have h := allocFold_frame (fun kb : String × List Doc => kb.2)
      (fun kb r' => (kb.1, r')) (fun p => p.2) (fun x r => rfl) s.arrays.length
      (gropDocuments (readArr s r) gfield) s [] (Nat.le_refl _)
    rcases h.2.2 p hp with hin | hge
    · cases hin
    · exact hge
  · intro s' pages hok
    cases hpag : paginate (readArr s r) opts with
    | error e =>
      rw [paginateST, hpag] at hok
      cases hok
    | ok ps =>
      rw [paginateST, hpag] at hok
      simp only [Except.map] at hok
      injection hok with hok
      have h := allocFold_frame (fun page : PageRec Doc => page.documents)
        (fun page r' => ({ previousUrl := page.previousUrl, nextUrl := page.nextUrl,
                           sourcePath := page.sourcePath, documents := r',
                           layout := page.layout, url := page.url } : PageRef))
        (fun p : PageRef => p.documents) (fun x r => rfl) s.arrays.length ps s []
        (Nat.le_refl _)
      have hfst : _ = s' := congrArg Prod.fst hok
      have hsnd : _ = pages := congrArg Prod.snd hok
      constructor
      · intro j hj
        rw [← hfst]
        exact h.1 j hj
      · intro p hp
        rw [← hsnd] at hp
        rcases h.2.2 p hp with hin | hge
        · cases hin
        · exact hge

/-- C9 witness: filtering a one-array store leaves the stored input
array readable unchanged at its old reference. -/
theorem queryLayer_frame_witness :
    readArr (filterDocumentsST ⟨[[[("a", Value.null)]]]⟩ 0 []).1 0
      = readArr ⟨[[[("a", Value.null)]]]⟩ 0 :=
  ((queryLayer_frame ⟨[[[("a", Value.null)]]]⟩ 0 [] [] "t" ⟨none, none, none⟩).1.1) 0
    (by decide)

/-- C10, confirmed.  A regex criterion on a field the document lacks is
tested against the string `"undefined"` — the JS string coercion of the
missing value — so the document passes exactly when the pattern matches
`"undefined"`, instead of being unconditionally excluded. -/
theorem filterDocuments_regex_undefined (d : Doc) (field : String) (test : String → Bool)
    (h : getEntry d field = none) :
    criterionHolds d field (.pattern test) = test "undefined" ∧
    filterDocuments [d] [(field, .pattern test)]
      = (if test "undefined" = true then [d] else []) := by
  have hk : getKey d field = .undefined := by simp [getKey, h]
  have hc : criterionHolds d field (.pattern test) = test "undefined" := by
    simp [criterionHolds, hk, jsToString]
  refine ⟨hc, ?_⟩
  by_cases ht : test "undefined" = true
  · simp [filterDocuments, passesFilters, List.filter, hc, ht]
  · simp [filterDocuments, passesFilters, List.filter, hc, ht]

/-- C10 witness: a document without a `lang` field passes the filter
`{lang: /undefined/}` when the pattern matches the string
`"undefined"`. -/
theorem filterDocuments_regex_undefined_witness :
    filterDocuments [[("title", Value.str "x")]]
        [("lang", .pattern (fun s => s == "undefined"))]
      = [[("title", Value.str "x")]] := by
  have h := (filterDocuments_regex_undefined [("title", Value.str "x")] "lang"
    (fun s => s == "undefined") rfl).2
  rw [h]
  simp

end Fledermaus
